import Mathlib

/-!
Verification of the ufcscraper repository core: record store deduplication,
cross-source date-windowed odds matching, fuzzy-score thresholding,
round-offset stat decoding, worker retry behaviour, identity write-back,
and URL id extraction.
-/

namespace UfcScraper

/-- A persisted row: a fixed sequence of column values, as in a CSV record. -/
abbrev Row := List String

/-- Embedding of `pandas.DataFrame.drop_duplicates` (keep first occurrence),
as invoked by `BaseFileHandler.remove_duplicates_from_file` and
`BaseFileHandler.load_data` in `base.py`. -/
def drop_duplicates {α : Type} [DecidableEq α] : List α → List α
  | [] => []
  | x :: xs => x :: drop_duplicates (xs.filter (fun y => y ≠ x))
termination_by l => l.length
decreasing_by
  simp only [List.length_cons]
  exact Nat.lt_succ_of_le (List.length_filter_le _ xs)

theorem drop_duplicates_nil {α : Type} [DecidableEq α] :
    drop_duplicates ([] : List α) = [] := by
  rw [drop_duplicates]

theorem drop_duplicates_cons {α : Type} [DecidableEq α] (x : α) (xs : List α) :
    drop_duplicates (x :: xs) = x :: drop_duplicates (xs.filter (fun y => y ≠ x)) := by
  rw [drop_duplicates]

theorem drop_duplicates_sublist {α : Type} [DecidableEq α] (l : List α) :
    List.Sublist (drop_duplicates l) l := by
  induction l using drop_duplicates.induct with
  | case1 => simp [drop_duplicates_nil]
  | case2 x xs ih =>
    rw [drop_duplicates_cons]
    exact List.Sublist.cons₂ x (ih.trans (List.filter_sublist xs))

theorem mem_drop_duplicates {α : Type} [DecidableEq α] (l : List α) (a : α) :
    a ∈ drop_duplicates l ↔ a ∈ l := by
  induction l using drop_duplicates.induct with
  | case1 => simp [drop_duplicates_nil]
  | case2 x xs ih =>
    rw [drop_duplicates_cons]
    constructor
    · intro h
      exact (drop_duplicates_sublist (x :: xs)).subset
        ((drop_duplicates_cons x xs) ▸ h)
    · intro h
      rcases List.mem_cons.mp h with h | h
      · exact h ▸ List.mem_cons_self _ _
      · by_cases hax : a = x
        · exact hax ▸ List.mem_cons_self _ _
        · refine List.mem_cons_of_mem _ (ih.mpr ?_)
          simp [List.mem_filter, h, hax]

theorem drop_duplicates_nodup {α : Type} [DecidableEq α] (l : List α) :
    (drop_duplicates l).Nodup := by
  induction l using drop_duplicates.induct with
  | case1 => simp [drop_duplicates_nil]
  | case2 x xs ih =>
    rw [drop_duplicates_cons]
    refine List.nodup_cons.mpr ⟨?_, ih⟩
    intro hmem
    have : x ∈ xs.filter (fun y => y ≠ x) := (mem_drop_duplicates _ _).mp hmem
    simp [List.mem_filter] at this

theorem drop_duplicates_of_nodup {α : Type} [DecidableEq α] (l : List α)
    (h : l.Nodup) : drop_duplicates l = l := by
  induction l using drop_duplicates.induct with
  | case1 => simp [drop_duplicates_nil]
  | case2 x xs ih =>
    rw [drop_duplicates_cons]
    rcases List.nodup_cons.mp h with ⟨hx, hxs⟩
    have hfilter : xs.filter (fun y => y ≠ x) = xs := by
      refine List.filter_eq_self.mpr ?_
      intro a ha
      simp only [ne_eq, decide_eq_true_eq]
      intro hax
      exact hx (hax ▸ ha)
    rw [hfilter] at ih ⊢
    rw [ih hxs]

theorem drop_duplicates_idem {α : Type} [DecidableEq α] (l : List α) :
    drop_duplicates (drop_duplicates l) = drop_duplicates l :=
  drop_duplicates_of_nodup _ (drop_duplicates_nodup l)

/-- First occurrences keep their relative order: `drop_duplicates l` is sorted
by the index of first occurrence in `l`. Helper: filtering preserves the
relative order of first-occurrence indices. -/
theorem indexOf_lt_of_filter_indexOf_lt {α : Type} [DecidableEq α]
    (p : α → Bool) (l : List α) (y z : α)
    (hy : y ∈ l.filter p) (hz : z ∈ l.filter p)
    (h : (l.filter p).indexOf y < (l.filter p).indexOf z) :
    l.indexOf y < l.indexOf z := by
  induction l with
  | nil => simp at hy
  | cons a l ih =>
    by_cases hpa : p a
    · rw [List.filter_cons_of_pos hpa] at hy hz h
      by_cases hya : y = a
      · subst hya
        have hzy : z ≠ y := by
          intro hzx
          subst hzx
          simp at h
        rw [List.indexOf_cons_self]
        rw [List.indexOf_cons_ne _ (by simpa using (Ne.symm hzy))]
        exact Nat.succ_pos _
      · have hza : z ≠ a := by
          intro hzx
          subst hzx
          rw [List.indexOf_cons_self] at h
          exact absurd h (Nat.not_lt_zero _)
        rw [List.indexOf_cons_ne _ (by simpa using (Ne.symm hya)),
          List.indexOf_cons_ne _ (by simpa using (Ne.symm hza))] at h
        rw [List.indexOf_cons_ne _ (by simpa using (Ne.symm hya)),
          List.indexOf_cons_ne _ (by simpa using (Ne.symm hza))]
        have hy' : y ∈ l.filter p := by
          rcases List.mem_cons.mp hy with h' | h'
          · exact absurd h' hya
          · exact h'
        have hz' : z ∈ l.filter p := by
          rcases List.mem_cons.mp hz with h' | h'
          · exact absurd h' hza
          · exact h'
        exact Nat.succ_lt_succ (ih hy' hz' (Nat.lt_of_succ_lt_succ h))
    · rw [List.filter_cons_of_neg hpa] at hy hz h
      have hya : y ≠ a := by
        intro hyx
        subst hyx
        exact hpa (List.of_mem_filter hy)
      have hza : z ≠ a := by
        intro hzx
        subst hzx
        exact hpa (List.of_mem_filter hz)
      rw [List.indexOf_cons_ne _ (by simpa using (Ne.symm hya)),
        List.indexOf_cons_ne _ (by simpa using (Ne.symm hza))]
      exact Nat.succ_lt_succ (ih hy hz h)

theorem drop_duplicates_pairwise_indexOf {α : Type} [DecidableEq α] (l : List α) :
    (drop_duplicates l).Pairwise (fun y z => l.indexOf y < l.indexOf z) := by
  induction l using drop_duplicates.induct with
  | case1 => simp [drop_duplicates_nil]
  | case2 x xs ih =>
    rw [drop_duplicates_cons]
    refine List.Pairwise.cons ?_ ?_
    · intro z hz
      have hzmem : z ∈ xs.filter (fun y => y ≠ x) := (mem_drop_duplicates _ _).mp hz
      have hzx : z ≠ x := by
        have := List.of_mem_filter hzmem
        simpa using this
      rw [List.indexOf_cons_self, List.indexOf_cons_ne _ (by simpa using (Ne.symm hzx))]
      exact Nat.succ_pos _
    · refine ih.imp_of_mem ?_
      intro a b ha hb hab
      have ha' : a ∈ xs.filter (fun y => y ≠ x) := (mem_drop_duplicates _ _).mp ha
      have hb' : b ∈ xs.filter (fun y => y ≠ x) := (mem_drop_duplicates _ _).mp hb
      have hax : a ≠ x := by simpa using List.of_mem_filter ha'
      have hbx : b ≠ x := by simpa using List.of_mem_filter hb'
      have := indexOf_lt_of_filter_indexOf_lt (fun y => y ≠ x) xs a b ha' hb' hab
      rw [List.indexOf_cons_ne _ (by simpa using (Ne.symm hax)),
        List.indexOf_cons_ne _ (by simpa using (Ne.symm hbx))]
      exact Nat.succ_lt_succ this

/-! ### Record store construction (`BaseFileHandler.__init__` in `base.py`) -/

/-- The persisted CSV file: a header line of column names followed by data rows. -/
structure FileState where
  header : List String
  rows : List Row
deriving DecidableEq

/-- Embedding of `BaseFileHandler.check_data_file`: if the file does not
exist, create it containing exactly the header row of the declared schema. -/
def check_data_file (columns : List String) : Option FileState → FileState
  | none => ⟨columns, []⟩
  | some f => f

/-- Embedding of `BaseFileHandler.remove_duplicates_from_file`: read the
file, drop exact-duplicate rows, write the result back. -/
def remove_duplicates_from_file (f : FileState) : FileState :=
  ⟨f.header, drop_duplicates f.rows⟩

/-- Embedding of `BaseFileHandler.load_data`: read the file and drop
exact-duplicate rows into the in-memory data. -/
def load_data (f : FileState) : List Row :=
  drop_duplicates f.rows

/-- State of a `BaseFileHandler` after construction: the on-disk file and
the in-memory data. -/
structure HandlerState where
  file : FileState
  data : List Row
deriving DecidableEq

/-- Embedding of `BaseFileHandler.__init__`: `check_data_file`, then
`remove_duplicates_from_file`, then `load_data`. -/
def base_file_handler_init (columns : List String) (disk : Option FileState) :
    HandlerState :=
  let f1 := check_data_file columns disk
  let f2 := remove_duplicates_from_file f1
  ⟨f2, load_data f2⟩

/-- Index of the first occurrence of `a` in `l`. -/
def first_index {α : Type} [DecidableEq α] (l : List α) (a : α) : ℕ :=
  l.indexOf a

/-- C5: loading the record store (`BaseFileHandler.load_data`) yields a row set
with no two identical rows, preserving first-occurrence order of the distinct
rows (the result is a sublist of the persisted rows, keeps every row that was
present, and is ordered by index of first occurrence), and deduplication is
idempotent: deduplicating an already-deduplicated row set leaves it unchanged. -/
theorem claim_C5 : ∀ f : FileState,
    (load_data f).Nodup ∧
    List.Sublist (load_data f) f.rows ∧
    (∀ r : Row, r ∈ load_data f ↔ r ∈ f.rows) ∧
    (load_data f).Pairwise
      (fun a b => first_index f.rows a < first_index f.rows b) ∧
    drop_duplicates (load_data f) = load_data f := by
  intro f
  refine ⟨drop_duplicates_nodup _, drop_duplicates_sublist _,
    fun r => mem_drop_duplicates _ _, drop_duplicates_pairwise_indexOf _,
    drop_duplicates_idem _⟩

/-- C6: on construction of a record store (`BaseFileHandler.__init__`): with no
persisted file, the file is initialized to exactly the header row of the
declared schema and the in-memory data is empty; with an existing file, its
rows are deduplicated and written back, and the in-memory data after
construction equals that deduplicated row set. -/
theorem claim_C6 : ∀ (columns : List String) (f : FileState),
    (base_file_handler_init columns none).file = ⟨columns, []⟩ ∧
    (base_file_handler_init columns none).data = [] ∧
    (base_file_handler_init columns (some f)).file =
      ⟨f.header, drop_duplicates f.rows⟩ ∧
    (base_file_handler_init columns (some f)).data =
      (base_file_handler_init columns (some f)).file.rows := by
  intro columns f
  refine ⟨?_, ?_, ?_, ?_⟩
  · simp [base_file_handler_init, check_data_file, remove_duplicates_from_file,
      load_data, drop_duplicates_nil]
  · simp [base_file_handler_init, check_data_file, remove_duplicates_from_file,
      load_data, drop_duplicates_nil]
  · simp [base_file_handler_init, check_data_file, remove_duplicates_from_file]
  · simp [base_file_handler_init, check_data_file, remove_duplicates_from_file,
      load_data, drop_duplicates_idem]

/-- C5 witness: a concrete store with a duplicate row loads to a
duplicate-free row set, and deduplicating it again changes nothing. -/
theorem claim_C5_witness :
    (load_data ⟨["a"], [["x"], ["x"], ["y"]]⟩).Nodup ∧
    drop_duplicates (load_data ⟨["a"], [["x"], ["x"], ["y"]]⟩) =
      load_data ⟨["a"], [["x"], ["x"], ["y"]]⟩ :=
  ⟨(claim_C5 ⟨["a"], [["x"], ["x"], ["y"]]⟩).1,
   (claim_C5 ⟨["a"], [["x"], ["x"], ["y"]]⟩).2.2.2.2⟩

/-- C6 witness: constructing over a missing file initializes it to exactly
the header row of the declared schema. -/
theorem claim_C6_witness :
    (base_file_handler_init ["c1", "c2"] none).file = ⟨["c1", "c2"], []⟩ :=
  (claim_C6 ["c1", "c2"] ⟨[], []⟩).1

/-! ### URL id extraction (`BaseScraper.id_from_url` in `base.py`) -/

/-- Embedding of Python `str.split(sep)` for a one-character separator, on the
character list of the string. -/
def py_split (sep : Char) : List Char → List (List Char)
  | [] => [[]]
  | c :: cs =>
    if c = sep then [] :: py_split sep cs
    else
      match py_split sep cs with
      | [] => [[c]]
      | s :: rest => (c :: s) :: rest

/-- Embedding of `BaseScraper.id_from_url`: if the last character is a slash,
recurse on the string without it; otherwise return the last piece of the
slash-split (`url.split("/")[-1]`). Accessing the last character of an empty
string raises `IndexError`, modelled as `none`. -/
def id_from_url (url : List Char) : Option (List Char) :=
  if h : url = [] then none
  else if url.getLast h = '/' then id_from_url url.dropLast
  else (py_split '/' url).getLast?
termination_by url.length
decreasing_by
  rw [List.length_dropLast]
  exact Nat.sub_lt (List.length_pos.mpr h) Nat.one_pos

theorem id_from_url_nil : id_from_url [] = none := by
  rw [id_from_url]
  simp

theorem id_from_url_last_slash (url : List Char) (h : url ≠ [])
    (h2 : url.getLast h = '/') :
    id_from_url url = id_from_url url.dropLast := by
  rw [id_from_url]
  simp [h, h2]

theorem id_from_url_last_ne (url : List Char) (h : url ≠ [])
    (h2 : url.getLast h ≠ '/') :
    id_from_url url = (py_split '/' url).getLast? := by
  rw [id_from_url]
  simp [h, h2]

theorem py_split_ne_nil (sep : Char) (l : List Char) : py_split sep l ≠ [] := by
  induction l with
  | nil => simp [py_split]
  | cons c cs ih =>
    by_cases hc : c = sep
    · simp [py_split, hc]
    · rw [py_split, if_neg hc]
      cases hps : py_split sep cs with
      | nil => exact absurd hps ih
      | cons s rest => simp

theorem py_split_of_not_mem (sep : Char) (l : List Char) (h : sep ∉ l) :
    py_split sep l = [l] := by
  induction l with
  | nil => simp [py_split]
  | cons c cs ih =>
    have hc : c ≠ sep := fun hc => h (hc ▸ List.mem_cons_self _ _)
    have hcs : sep ∉ cs := fun hm => h (List.mem_cons_of_mem _ hm)
    rw [py_split, if_neg hc, ih hcs]

theorem py_split_eq_singleton (sep : Char) (l s : List Char)
    (h : py_split sep l = [s]) : l = s ∧ sep ∉ s := by
  induction l generalizing s with
  | nil =>
    simp only [py_split] at h
    have hs : s = [] := by simpa using h.symm
    subst hs
    exact ⟨rfl, by simp⟩
  | cons c cs ih =>
    by_cases hc : c = sep
    · rw [py_split, if_pos hc] at h
      have := py_split_ne_nil sep cs
      simp at h
      exact absurd h.2 this
    · rw [py_split, if_neg hc] at h
      cases hps : py_split sep cs with
      | nil => exact absurd hps (py_split_ne_nil sep cs)
      | cons s2 rest =>
        rw [hps] at h
        have h1 : c :: s2 = s ∧ rest = [] := by
          constructor
          · exact (List.cons_eq_cons.mp h).1
          · exact (List.cons_eq_cons.mp h).2
        rcases h1 with ⟨hs, hrest⟩
        subst hrest
        rcases ih s2 hps with ⟨hcs, hsep⟩
        subst hcs
        subst hs
        refine ⟨rfl, ?_⟩
        intro hmem
        rcases List.mem_cons.mp hmem with h' | h'
        · exact hc h'.symm
        · exact hsep h'

theorem getLast?_cons_of_ne_nil {α : Type} (a : α) (l : List α) (h : l ≠ []) :
    (a :: l).getLast? = l.getLast? := by
  cases l with
  | nil => exact absurd rfl h
  | cons b m => exact List.getLast?_cons_cons

/-- Python's `l.split(sep)[-1]`: the last piece is always defined, and when the
list does not end with the separator it is a non-empty separator-free suffix
preceded by nothing or by a separator. -/
theorem py_split_getLast (sep : Char) (l : List Char) (hne : l ≠ [])
    (hlast : l.getLast? ≠ some sep) :
    ∃ pre res, (py_split sep l).getLast? = some res ∧ l = pre ++ res ∧
      res ≠ [] ∧ sep ∉ res ∧ (pre = [] ∨ pre.getLast? = some sep) := by
  induction l with
  | nil => exact absurd rfl hne
  | cons c cs ih =>
    cases hcs : cs with
    | nil =>
      subst hcs
      have hc : c ≠ sep := by
        intro hc
        exact hlast (by simp [hc])
      refine ⟨[], [c], ?_, by simp, by simp, by simpa using Ne.symm hc,
        Or.inl rfl⟩
      rw [py_split, if_neg hc]
      simp [py_split]
    | cons c2 cs2 =>
      subst hcs
      have hlast2 : (c2 :: cs2).getLast? ≠ some sep := by
        rwa [List.getLast?_cons_cons] at hlast
      rcases ih (by simp) hlast2 with ⟨pre, res, hget, heq, hresne, hsep, hpre⟩
      by_cases hc : c = sep
      · subst hc
        refine ⟨c :: pre, res, ?_, by simp [heq], hresne, hsep, ?_⟩
        · rw [py_split, if_pos rfl,
            getLast?_cons_of_ne_nil _ _ (py_split_ne_nil _ _), hget]
        · rcases hpre with hpre | hpre
          · subst hpre
            exact Or.inr (by simp)
          · refine Or.inr ?_
            have hprene : pre ≠ [] := by
              intro hp
              subst hp
              simp at hpre
            rw [getLast?_cons_of_ne_nil _ _ hprene]
            exact hpre
      · cases hps : py_split sep (c2 :: cs2) with
        | nil => exact absurd hps (py_split_ne_nil _ _)
        | cons s rest =>
          have hred : py_split sep (c :: c2 :: cs2) = (c :: s) :: rest := by
            rw [py_split, if_neg hc, hps]
          cases hrest : rest with
          | nil =>
            subst hrest
            rcases py_split_eq_singleton sep (c2 :: cs2) s hps with
              ⟨hcs2, hsepnotin⟩
            refine ⟨[], c :: s, ?_, by simp [hcs2], by simp, ?_, Or.inl rfl⟩
            · rw [hred]
              simp
            · intro hmem
              rcases List.mem_cons.mp hmem with h' | h'
              · exact hc h'.symm
              · exact hsepnotin h'
          | cons r rest2 =>
            subst hrest
            rw [hps] at hget
            have hprene : pre ≠ [] := by
              intro hp
              subst hp
              simp only [List.nil_append] at heq
              rw [py_split_of_not_mem sep (c2 :: cs2) (heq ▸ hsep)] at hps
              simp at hps
            refine ⟨c :: pre, res, ?_, by simp [heq], hresne, hsep, ?_⟩
            · rw [hred, List.getLast?_cons_cons]
              have h2 : (s :: r :: rest2).getLast? = (r :: rest2).getLast? :=
                List.getLast?_cons_cons
              rw [← h2]
              exact hget
            · rcases hpre with hpre | hpre
              · exact absurd hpre hprene
              · exact Or.inr ((getLast?_cons_of_ne_nil _ _ hprene).trans hpre)

/-- The claim's notion: the input with its trailing slashes removed. -/
def trailing_slashes_removed (url : List Char) : List Char :=
  (url.reverse.dropWhile (fun c => c = '/')).reverse

theorem trailing_slashes_removed_last_slash (url : List Char) (h : url ≠ [])
    (h2 : url.getLast h = '/') :
    trailing_slashes_removed url = trailing_slashes_removed url.dropLast := by
  unfold trailing_slashes_removed
  conv_lhs => rw [← List.dropLast_append_getLast h]
  rw [List.reverse_append, h2]
  simp [List.dropWhile_cons]

theorem trailing_slashes_removed_last_ne (url : List Char) (h : url ≠ [])
    (h2 : url.getLast h ≠ '/') :
    trailing_slashes_removed url = url := by
  unfold trailing_slashes_removed
  conv_lhs => rw [← List.dropLast_append_getLast h]
  rw [List.reverse_append]
  simp only [List.reverse_cons, List.reverse_nil, List.nil_append,
    List.singleton_append, List.dropWhile_cons]
  rw [if_neg (by simpa using h2)]
  rw [List.reverse_cons, List.reverse_reverse]
  exact List.dropLast_append_getLast h

/-- C10: `BaseScraper.id_from_url` terminates on every input; on a string with
at least one non-slash character it returns the piece after the last slash of
the string with its trailing slashes removed (a non-empty slash-free suffix
preceded by nothing or by a slash); on the empty string, or a string of only
slashes, the index access fails (modelled as `none`). -/
theorem claim_C10 : ∀ url : List Char,
    ((∃ c ∈ url, c ≠ '/') →
      ∃ pre res, id_from_url url = some res ∧
        trailing_slashes_removed url = pre ++ res ∧ res ≠ [] ∧ '/' ∉ res ∧
        (pre = [] ∨ pre.getLast? = some '/')) ∧
    ((∀ c ∈ url, c = '/') → id_from_url url = none) := by
  suffices H : ∀ (n : ℕ) (url : List Char), url.length = n →
      ((∃ c ∈ url, c ≠ '/') →
        ∃ pre res, id_from_url url = some res ∧
          trailing_slashes_removed url = pre ++ res ∧ res ≠ [] ∧ '/' ∉ res ∧
          (pre = [] ∨ pre.getLast? = some '/')) ∧
      ((∀ c ∈ url, c = '/') → id_from_url url = none) by
    intro url
    exact H url.length url rfl
  intro n
  induction n using Nat.strong_induction_on with
  | _ n ih =>
    intro url hn
    constructor
    · intro hex
      have hne : url ≠ [] := by
        rintro rfl
        simp at hex
      by_cases hlast : url.getLast hne = '/'
      · rw [id_from_url_last_slash url hne hlast,
          trailing_slashes_removed_last_slash url hne hlast]
        have hlen : url.dropLast.length < n := by
          subst hn
          rw [List.length_dropLast]
          exact Nat.sub_lt (List.length_pos.mpr hne) Nat.one_pos
        refine (ih _ hlen url.dropLast rfl).1 ?_
        rcases hex with ⟨c, hc, hcne⟩
        refine ⟨c, ?_, hcne⟩
        have := List.dropLast_append_getLast hne
        rw [← this] at hc
        rcases List.mem_append.mp hc with h' | h'
        · exact h'
        · simp at h'
          exact absurd (h' ▸ hlast) hcne
      · rw [id_from_url_last_ne url hne hlast,
          trailing_slashes_removed_last_ne url hne hlast]
        refine py_split_getLast '/' url hne ?_
        rw [List.getLast?_eq_getLast url hne]
        simpa using hlast
    · intro hall
      cases hurl : url with
      | nil => exact id_from_url_nil
      | cons c cs =>
        subst hurl
        have hne : c :: cs ≠ [] := by simp
        have hlast : (c :: cs).getLast hne = '/' :=
          hall _ (List.getLast_mem hne)
        rw [id_from_url_last_slash _ hne hlast]
        have hlen : (c :: cs).dropLast.length < n := by
          subst hn
          rw [List.length_dropLast]
          exact Nat.sub_lt (List.length_pos.mpr hne) Nat.one_pos
        refine (ih _ hlen _ rfl).2 ?_
        intro a ha
        exact hall a ((List.dropLast_sublist _).subset ha)

/-- C10 witness: on the concrete URL characters `a / b /` the extractor
returns `b`, with trailing slashes removed and the piece after the last
remaining slash selected. -/
theorem claim_C10_witness :
    ∃ pre res, id_from_url ['a', '/', 'b', '/'] = some res ∧
      trailing_slashes_removed ['a', '/', 'b', '/'] = pre ++ res ∧
      res ≠ [] ∧ '/' ∉ res ∧ (pre = [] ∨ pre.getLast? = some '/') :=
  (claim_C10 ['a', '/', 'b', '/']).1 ⟨'a', by simp, by decide⟩

/-! ### Round-offset stat decoder (`RoundsHandler.get_stats` in
`fight_scraper.py`) -/

/-- General-stats shift from the source: `shift_general = 20 * round_`, then
`+= 1` when the fighter index is 1. -/
def shift_general (fighter round_ : ℕ) : ℕ :=
  let s := 20 * round_
  if fighter = 1 then s + 1 else s

/-- Striking-breakdown shift from the source:
`shift_striking = 20 * (finish_round + 1) + 18 * round_`, then `+= 1` when the
fighter index is 1. -/
def shift_striking (fighter round_ finish_round : ℕ) : ℕ :=
  let s := 20 * (finish_round + 1) + 18 * round_
  if fighter = 1 then s + 1 else s

/-- Python `text.split(" of ")[1]`: `none` when there is no second piece
(the `IndexError` caught by the decoder). -/
def split_of_second (s : String) : Option String :=
  (s.splitOn " of ")[1]?

/-- Python `text.split(" of ")[0]`. -/
def split_of_first (s : String) : Option String :=
  (s.splitOn " of ")[0]?

/-- The 22 statistic cell reads of `RoundsHandler.get_stats`, in source order;
`none` marks a cell access or split that would raise. -/
def field_opts (cells : List String) (sg ss : ℕ) : List (Option String) :=
  [cells.get? (2 + sg),
   (cells.get? (2 + ss)).bind split_of_second,
   (cells.get? (2 + ss)).bind split_of_first,
   (cells.get? (6 + ss)).bind split_of_second,
   (cells.get? (6 + ss)).bind split_of_first,
   (cells.get? (8 + ss)).bind split_of_second,
   (cells.get? (8 + ss)).bind split_of_first,
   (cells.get? (10 + ss)).bind split_of_second] ++
  [(cells.get? (10 + ss)).bind split_of_first,
   (cells.get? (12 + ss)).bind split_of_second,
   (cells.get? (12 + ss)).bind split_of_first,
   (cells.get? (16 + ss)).bind split_of_second,
   (cells.get? (16 + ss)).bind split_of_first,
   (cells.get? (14 + ss)).bind split_of_second,
   (cells.get? (14 + ss)).bind split_of_first] ++
  [(cells.get? (8 + sg)).bind split_of_second,
   (cells.get? (8 + sg)).bind split_of_first,
   (cells.get? (10 + sg)).bind split_of_second,
   (cells.get? (10 + sg)).bind split_of_first,
   cells.get? (14 + sg),
   cells.get? (16 + sg),
   cells.get? (18 + sg)]

/-- All-or-nothing sequencing: the whole tuple, or the first failure. -/
def option_all {α : Type} : List (Option α) → Option (List α)
  | [] => some []
  | none :: _ => none
  | some a :: os => (option_all os).map (fun rest => a :: rest)

theorem option_all_length {α : Type} (l : List (Option α)) (l2 : List α)
    (h : option_all l = some l2) : l2.length = l.length := by
  induction l generalizing l2 with
  | nil =>
    simp only [option_all, Option.some_inj] at h
    simp [← h]
  | cons o os ih =>
    cases o with
    | none => simp [option_all] at h
    | some a =>
      simp only [option_all, Option.map_eq_some'] at h
      rcases h with ⟨rest, hrec, hl2⟩
      rw [← hl2]
      simp [ih rest hrec]

theorem option_all_eq_none {α : Type} (l : List (Option α)) :
    option_all l = none ↔ ∃ o ∈ l, o = none := by
  induction l with
  | nil => simp [option_all]
  | cons o os ih =>
    cases o with
    | none => simp [option_all]
    | some a =>
      simp only [option_all, Option.map_eq_none']
      rw [ih]
      simp

/-- Embedding of `RoundsHandler.get_stats`: a `ValueError` for a fighter
index outside `{0, 1}` (raised before the `try` block), otherwise the 22
fields trimmed, degrading to a row of 22 `"NULL"` entries when any cell read
or split fails. -/
def get_stats (cells : List String) (fighter round_ finish_round : ℕ) :
    Except String (List String) :=
  if fighter ≠ 0 ∧ fighter ≠ 1 then
    Except.error "fighter must be 0 or 1"
  else
    match option_all (field_opts cells (shift_general fighter round_)
        (shift_striking fighter round_ finish_round)) with
    | some vals => Except.ok (vals.map String.trim)
    | none => Except.ok (List.replicate 22 "NULL")

/-- C7: for every round number, total-round count and fighter index in
`{0, 1}`, the decoder's general-stats shift is `20 * r` and its
striking-breakdown shift is `20 * (n + 1) + 18 * r`, each incremented by
exactly 1 when the fighter index is 1. -/
theorem claim_C7 (round_ finish_round fighter : ℕ)
    (hf : fighter = 0 ∨ fighter = 1) :
    shift_general fighter round_ =
      20 * round_ + (if fighter = 1 then 1 else 0) ∧
    shift_striking fighter round_ finish_round =
      20 * (finish_round + 1) + 18 * round_ +
        (if fighter = 1 then 1 else 0) := by
  rcases hf with hf | hf <;> subst hf <;>
    simp [shift_general, shift_striking]

/-- C7 witness: for round 1 of a 3-round fight the shifts are 20 and 98 for
fighter 0, and 21 and 99 for fighter 1. -/
theorem claim_C7_witness :
    (shift_general 0 1 = 20 ∧ shift_striking 0 1 3 = 98) ∧
    (shift_general 1 1 = 21 ∧ shift_striking 1 1 3 = 99) :=
  ⟨⟨((claim_C7 1 3 0 (Or.inl rfl)).1).trans (by norm_num),
    ((claim_C7 1 3 0 (Or.inl rfl)).2).trans (by norm_num)⟩,
   ⟨((claim_C7 1 3 1 (Or.inr rfl)).1).trans (by norm_num),
    ((claim_C7 1 3 1 (Or.inr rfl)).2).trans (by norm_num)⟩⟩

/-- C8: for a fighter index in `{0, 1}` the decoder never lets an exception
escape (it always returns a row), the row has exactly 22 entries, and if any
cell access or `" of "` split fails the row consists entirely of the sentinel
`"NULL"` rather than partial data. -/
theorem claim_C8 (cells : List String) (fighter round_ finish_round : ℕ)
    (hf : fighter = 0 ∨ fighter = 1) :
    ∃ row, get_stats cells fighter round_ finish_round = Except.ok row ∧
      row.length = 22 ∧
      ((∃ o ∈ field_opts cells (shift_general fighter round_)
          (shift_striking fighter round_ finish_round), o = none) →
        row = List.replicate 22 "NULL") := by
  have hguard : ¬ (fighter ≠ 0 ∧ fighter ≠ 1) := by
    rcases hf with hf | hf <;> subst hf <;> simp
  unfold get_stats
  rw [if_neg hguard]
  cases hall : option_all (field_opts cells (shift_general fighter round_)
      (shift_striking fighter round_ finish_round)) with
  | none =>
    refine ⟨List.replicate 22 "NULL", rfl, by simp, fun _ => rfl⟩
  | some vals =>
    refine ⟨vals.map String.trim, rfl, ?_, ?_⟩
    · rw [List.length_map, option_all_length _ _ hall]
      rfl
    · intro hfail
      exact absurd hall (by simp [(option_all_eq_none _).mpr hfail])

/-- C8 witness: decoding from an empty cell sequence yields the all-NULL row
of length 22. -/
theorem claim_C8_witness :
    ∃ row, get_stats [] 0 1 3 = Except.ok row ∧ row.length = 22 ∧
      ((∃ o ∈ field_opts [] (shift_general 0 1) (shift_striking 0 1 3),
          o = none) → row = List.replicate 22 "NULL") :=
  claim_C8 [] 0 1 3 (Or.inl rfl)

/-! ### Worker retry loop (`worker_constructor` in `utils.py`,
`BestFightOddsScraper.worker_constructor_target` in `odds_scraper.py`) -/

/-- One task's retry loop (`for attempt in range(max_exception_retries + 1)`):
attempt indices count up while fuel remains; the first successful attempt
yields its result, exhausted attempts yield `none`. -/
def run_attempts {α : Type} (exec : ℕ → Option α) : ℕ → ℕ → Option α
  | _, 0 => none
  | start, fuel + 1 =>
    match exec start with
    | some r => some r
    | none => run_attempts exec (start + 1) fuel

/-- What the worker puts on the result queue for one task: on the first
successful attempt it puts `(result, id_)` and breaks out of the retry loop;
when every attempt raises, the retry loop ends without putting anything (the
outer `except` that puts `None` is only reachable for failures outside the
retry loop). -/
def worker_task_emissions {α ι : Type} (exec : ℕ → Option α)
    (max_exception_retries : ℕ) (id_ : ι) : List (α × ι) :=
  match run_attempts exec 0 (max_exception_retries + 1) with
  | some r => [(r, id_)]
  | none => []

/-- Result-queue contents produced by a worker processing its task list in
order. -/
def worker_emissions {α β ι : Type} (exec : β → ℕ → Option α)
    (max_exception_retries : ℕ) (tasks : List (β × ι)) : List (α × ι) :=
  tasks.flatMap
    (fun t => worker_task_emissions (exec t.1) max_exception_retries t.2)

/-- C2 evaluated at the failing input: a task that fails on every one of its
`max_exception_retries + 1 = 4` attempts contributes nothing to the result
queue — no null result is emitted for it — while the worker does continue
with the next task. A consumer reading one result per task therefore blocks. -/
theorem claim_C2 :
    worker_emissions (fun (_ : Unit) (_ : ℕ) => (none : Option ℕ)) 3
      [((), 0)] = [] ∧
    worker_emissions (fun (b : Bool) (_ : ℕ) => if b then some 7 else none) 3
      [(false, 0), (true, 1)] = [(7, 1)] :=
  ⟨rfl, rfl⟩

/-! ### Identity write-back (`scrape_BFO_odds` in `odds_scraper.py`,
lines 709-724) -/

/-- A row of the `fighter_names.csv` table. -/
structure FNRow where
  fighter_id : String
  database : String
  name : String
  database_id : String
deriving DecidableEq

/-- A discovered identity triple `(id_, bfo_id, name)` as collected in
`new_BFO_names`. -/
structure Triple where
  id_ : String
  bfo_id : String
  name : String
deriving DecidableEq

/-- Embedding of the `in_database` check: the exact row is present in the
in-memory `self.fighter_names.data` snapshot. -/
def in_database (snapshot : List FNRow) (t : Triple) : Bool :=
  snapshot.any (fun r =>
    r.fighter_id == t.id_ && r.database == "BestFightOdds" &&
      r.database_id == t.bfo_id && r.name == t.name)

/-- The row appended by
`writer_names.writerow([id_, "BestFightOdds", name, bfo_id])`. -/
def write_row (t : Triple) : FNRow :=
  ⟨t.id_, "BestFightOdds", t.name, t.bfo_id⟩

/-- Processing one worker result's `new_BFO_names` set: append each triple
whose exact row is absent from the in-memory snapshot. -/
def process_batch (snapshot : List FNRow) (file : List FNRow)
    (batch : List Triple) : List FNRow :=
  batch.foldl
    (fun f t => if in_database snapshot t then f else f ++ [write_row t]) file

/-- A scraping session: the snapshot is loaded before the session and is
never refreshed while result batches are processed; appends go to the file
only. -/
def scrape_session (snapshot : List FNRow) (file : List FNRow)
    (batches : List (List Triple)) : List FNRow :=
  batches.foldl (process_batch snapshot) file

theorem mem_process_batch (snapshot : List FNRow) (file : List FNRow)
    (batch : List Triple) (r : FNRow)
    (h : r ∈ process_batch snapshot file batch) :
    r ∈ file ∨ ∃ t ∈ batch, r = write_row t ∧
      in_database snapshot t = false := by
  induction batch generalizing file with
  | nil => exact Or.inl h
  | cons t batch ih =>
    unfold process_batch at h
    rw [List.foldl_cons] at h
    rcases ih _ h with h' | ⟨t2, ht2, hr, hdb⟩
    · by_cases hdbt : in_database snapshot t
      · rw [if_pos hdbt] at h'
        exact Or.inl h'
      · rw [if_neg hdbt] at h'
        rcases List.mem_append.mp h' with h'' | h''
        · exact Or.inl h''
        · refine Or.inr ⟨t, List.mem_cons_self _ _, ?_,
            Bool.eq_false_iff.mpr hdbt⟩
          simpa using h''
    · exact Or.inr ⟨t2, List.mem_cons_of_mem _ ht2, hr, hdb⟩

/-- C9 counterexample: the same new triple discovered in two different worker
results is appended twice — the snapshot check does not see the first append —
so the FighterName table comes to contain two identical identity rows within
the session. -/
theorem claim_C9_counterexample :
    scrape_session [] [] [[⟨"f", "b", "N"⟩], [⟨"f", "b", "N"⟩]] =
      [write_row ⟨"f", "b", "N"⟩, write_row ⟨"f", "b", "N"⟩] ∧
    ¬ (scrape_session [] []
        [[⟨"f", "b", "N"⟩], [⟨"f", "b", "N"⟩]]).Nodup := by
  constructor
  · rfl
  · intro h
    rw [show scrape_session [] [] [[⟨"f", "b", "N"⟩], [⟨"f", "b", "N"⟩]] =
        [write_row ⟨"f", "b", "N"⟩, write_row ⟨"f", "b", "N"⟩] from rfl] at h
    simp [List.nodup_cons] at h

/-- C9 amended: every row the session appends to the FighterName table comes
from a discovered triple whose exact row was absent from the in-memory
snapshot loaded before the session (rows already in the snapshot are never
re-appended); the check does not extend to rows appended earlier in the same
session, so cross-batch duplicates are possible. -/
theorem claim_C9_amended (snapshot : List FNRow) (file : List FNRow)
    (batches : List (List Triple)) (r : FNRow)
    (h : r ∈ scrape_session snapshot file batches) :
    r ∈ file ∨ ∃ t, (∃ b ∈ batches, t ∈ b) ∧ r = write_row t ∧
      in_database snapshot t = false := by
  induction batches generalizing file with
  | nil => exact Or.inl h
  | cons batch batches ih =>
    unfold scrape_session at h
    rw [List.foldl_cons] at h
    rcases ih _ h with h' | ⟨t, ⟨b, hb, htb⟩, hr, hdb⟩
    · rcases mem_process_batch _ _ _ _ h' with h'' | ⟨t, ht, hr, hdb⟩
      · exact Or.inl h''
      · exact Or.inr ⟨t, ⟨batch, List.mem_cons_self _ _, ht⟩, hr, hdb⟩
    · exact Or.inr ⟨t, ⟨b, List.mem_cons_of_mem _ hb, htb⟩, hr, hdb⟩

/-- C9 witness: a concrete appended row, traced back to its discovered triple
absent from the (empty) snapshot. -/
theorem claim_C9_witness :
    write_row ⟨"f", "b", "N"⟩ ∈ ([] : List FNRow) ∨
    ∃ t, (∃ b ∈ [[(⟨"f", "b", "N"⟩ : Triple)]], t ∈ b) ∧
      write_row ⟨"f", "b", "N"⟩ = write_row t ∧ in_database [] t = false :=
  claim_C9_amended [] [] [[⟨"f", "b", "N"⟩]] (write_row ⟨"f", "b", "N"⟩)
    (by simp [scrape_session, process_batch, in_database])

/-! ### Date-windowed matcher and fuzzy thresholds
(`BestFightOddsScraper.scrape_BFO_odds` and
`BestFightOddsScraper.search_fighter_profile` in `odds_scraper.py`) -/

/-- The date-window test from the source:
`abs((candidate_date - date).days) <= 1.5`. Dates subtract to a whole number
of days, compared against the fractional tolerance literal 1.5. -/
def in_window (candidate_date date : ℤ) : Bool :=
  decide (|(candidate_date : ℚ) - (date : ℚ)| ≤ 3 / 2)

/-- The window test as an integer bound, for evaluation. -/
theorem in_window_eq (candidate_date date : ℤ) :
    in_window candidate_date date =
      decide ((candidate_date - date).natAbs ≤ 1) := by
  unfold in_window
  rw [decide_eq_decide]
  rw [← Int.cast_sub, ← Int.cast_abs, Int.abs_eq_natAbs, Int.cast_natCast]
  constructor
  · intro h
    by_contra hn
    push_neg at hn
    have h2 : (2 : ℚ) ≤ ((candidate_date - date).natAbs : ℚ) := by
      exact_mod_cast hn
    linarith
  · intro h
    have h1 : (((candidate_date - date).natAbs : ℚ)) ≤ 1 := by
      exact_mod_cast h
    linarith

/-- `candidates_indxs`: indices of the source-B records whose date falls
inside the window around the source-A date
(`[i for i, candidate_date in enumerate(dates) if ...]`). -/
def candidates_indxs (dates : List ℤ) (date : ℤ) : List ℕ :=
  ((dates.enum).filter (fun p => in_window p.2 date)).map Prod.fst

/-- Embedding of `fuzzywuzzy.process.extractOne`: score every choice against
the query and return the first choice attaining the maximum score, or `none`
when there are no choices. -/
def extract_one (scorer : String → String → ℕ) (query : String) :
    List String → Option (String × ℕ)
  | [] => none
  | c :: cs =>
    some (cs.foldl
      (fun best ch =>
        if scorer query ch > best.2 then (ch, scorer query ch) else best)
      (c, scorer query c))

/-- Python `max(scores, key=lambda x: x[1])`: first maximum. -/
def max_by_score (s : String × ℕ) (ss : List (String × ℕ)) : String × ℕ :=
  ss.foldl (fun b p => if p.2 > b.2 then p else b) s

/-- The matcher's scoring step exactly as the source writes it: every
candidate opponent name is scored against the candidate list itself
(`for opponent in possible_opponents`); the source-A opponent name is never
consulted. Returns the `(best_name, score)` pair picked by `max`. -/
def match_best (scorer : String → String → ℕ) (dates : List ℤ)
    (opponents_BFO_names : List String) (date : ℤ) : Option (String × ℕ) :=
  let idxs := candidates_indxs dates date
  if idxs = [] then none
  else
    let possible := idxs.map (fun i => opponents_BFO_names.getD i "")
    let scores := possible.filterMap
      (fun opponent => extract_one scorer opponent possible)
    match scores with
    | [] => none
    | s :: ss => some (max_by_score s ss)

/-- One record of the matcher (`scrape_BFO_odds` lines 643-702): candidate
window, candidate-vs-candidate scoring, first-maximum selection, index lookup
in the full candidate-name list, strict-threshold acceptance
(`if score > self.min_score`). Returns the accepted index, `none` when the
record is unmatched. -/
def match_record (scorer : String → String → ℕ) (min_score : ℕ)
    (dates : List ℤ) (opponents_BFO_names : List String) (date : ℤ) :
    Option ℕ :=
  match match_best scorer dates opponents_BFO_names date with
  | none => none
  | some (best_name, score) =>
    if score > min_score then
      some (opponents_BFO_names.indexOf best_name)
    else none

/-- The matcher as the claim states it: score the source-A opponent name
against every candidate opponent name and select the candidate with the
maximum score, accepting only above the threshold. -/
def spec_match_record (scorer : String → String → ℕ) (min_score : ℕ)
    (dates : List ℤ) (opponents_BFO_names : List String) (date : ℤ)
    (target_opponent : String) : Option ℕ :=
  let idxs := candidates_indxs dates date
  if idxs = [] then none
  else
    let possible := idxs.map (fun i => opponents_BFO_names.getD i "")
    match extract_one scorer target_opponent possible with
    | none => none
    | some (best_name, score) =>
      if score > min_score then
        some (opponents_BFO_names.indexOf best_name)
      else none

/-- A stand-in scorer with the two properties of the token-sort ratio that
matter here: a string scores 100 against itself and distinct test strings
score 0. -/
def eq_scorer : String → String → ℕ :=
  fun a b => if a = b then 100 else 0

def web_url : String := "https://www.bestfightodds.com"

/-- The fuzzy-resolution core of `search_fighter_profile` (lines 397-408):
`process.extractOne` over the result names, strict-threshold acceptance,
URL lookup by `fighters_names.index(best_name)`. -/
def search_profile_select (scorer : String → String → ℕ) (min_score : ℕ)
    (search_fighter : String) (fighters_names fighters_urls : List String) :
    Option (String × String) :=
  match extract_one scorer search_fighter fighters_names with
  | none => none
  | some (best_name, score) =>
    if score > min_score then
      some (best_name,
        web_url ++ fighters_urls.getD (fighters_names.indexOf best_name) "")
    else none

/-- C1 evaluated at a failing input: with a single window candidate named
Bob Smith and the source-A opponent named Alice Jones, the code accepts the
candidate (it scores candidates against themselves, so the best score is
100), while the claimed algorithm scores Alice Jones against Bob Smith
(score 0) and leaves the record unmatched. -/
theorem claim_C1 :
    match_record eq_scorer 90 [0] ["Bob Smith"] 0 = some 0 ∧
    spec_match_record eq_scorer 90 [0] ["Bob Smith"] 0 "Alice Jones" =
      none := by
  have hcand : candidates_indxs [0] 0 = [0] := by
    simp only [candidates_indxs, in_window_eq]
    rfl
  constructor
  · unfold match_record match_best
    rw [hcand]
    rfl
  · unfold spec_match_record
    rw [hcand]
    rfl

/-- C3: a source-B record is a candidate exactly when the absolute difference
of the dates is at most 1.5 days; with whole-day differences this is the same
as at most 1 day, so dates exactly 1 day before and after the target are both
eligible and a date 2 days away is excluded. -/
theorem claim_C3 :
    (∀ (dates : List ℤ) (date : ℤ) (i : ℕ),
      i ∈ candidates_indxs dates date ↔
        ∃ cd, dates[i]? = some cd ∧ |(cd : ℚ) - (date : ℚ)| ≤ 3 / 2) ∧
    (∀ candidate_date date : ℤ,
      in_window candidate_date date = true ↔ |candidate_date - date| ≤ 1) ∧
    candidates_indxs [-1, 1, 2] 0 = [0, 1] := by
  refine ⟨?_, ?_, ?_⟩
  · intro dates date i
    unfold candidates_indxs
    simp only [List.mem_map, List.mem_filter]
    constructor
    · rintro ⟨⟨j, cd⟩, ⟨hmem, hw⟩, rfl⟩
      refine ⟨cd, List.mk_mem_enum_iff_getElem?.mp hmem, ?_⟩
      exact of_decide_eq_true hw
    · rintro ⟨cd, hget, habs⟩
      exact ⟨(i, cd), ⟨List.mk_mem_enum_iff_getElem?.mpr hget,
        decide_eq_true habs⟩, rfl⟩
  · intro candidate_date date
    rw [in_window_eq]
    rw [decide_eq_true_eq]
    rw [Int.abs_eq_natAbs]
    omega
  · simp only [candidates_indxs, in_window_eq]
    rfl

/-- C3 witness: around target date 0, candidate dates -1 and 1 (exactly one
day away) are both eligible and candidate date 2 is excluded. -/
theorem claim_C3_witness :
    0 ∈ candidates_indxs [-1, 1, 2] 0 ∧ 1 ∈ candidates_indxs [-1, 1, 2] 0 ∧
      2 ∉ candidates_indxs [-1, 1, 2] 0 := by
  rw [claim_C3.2.2]
  exact ⟨by simp, by simp, by simp⟩

/-- C4: in both fuzzy-resolution sites (the fighter-profile search and the
odds matcher's candidate selection) the best match is accepted exactly when
its score strictly exceeds the threshold. -/
theorem claim_C4 (scorer : String → String → ℕ) (min_score : ℕ) :
    (∀ (query : String) (fighters_names fighters_urls : List String)
        (best_name : String) (score : ℕ),
      extract_one scorer query fighters_names = some (best_name, score) →
      ((search_profile_select scorer min_score query fighters_names
          fighters_urls).isSome ↔ score > min_score)) ∧
    (∀ (dates : List ℤ) (opponents_BFO_names : List String) (date : ℤ)
        (best_name : String) (score : ℕ),
      match_best scorer dates opponents_BFO_names date =
        some (best_name, score) →
      ((match_record scorer min_score dates opponents_BFO_names
          date).isSome ↔ score > min_score)) := by
  constructor
  · intro query fighters_names fighters_urls best_name score h
    unfold search_profile_select
    rw [h]
    by_cases hgt : score > min_score
    · simp [hgt]
    · simp [hgt]
  · intro dates opponents_BFO_names date best_name score h
    unfold match_record
    rw [h]
    by_cases hgt : score > min_score
    · simp [hgt]
    · simp [hgt]

/-- C4 witness: with the default threshold 90, a best score of exactly 90 is
rejected and a best score of 91 is accepted. -/
theorem claim_C4_witness :
    ((search_profile_select (fun _ _ => 90) 90 "Jon Jones" ["Jon Bones"]
        ["/f1"]).isSome ↔ 90 > 90) ∧
    ((search_profile_select (fun _ _ => 91) 90 "Jon Jones" ["Jon Bones"]
        ["/f1"]).isSome ↔ 91 > 90) :=
  ⟨(claim_C4 (fun _ _ => 90) 90).1 "Jon Jones" ["Jon Bones"] ["/f1"]
      "Jon Bones" 90 rfl,
   (claim_C4 (fun _ _ => 91) 90).1 "Jon Jones" ["Jon Bones"] ["/f1"]
      "Jon Bones" 91 rfl⟩

end UfcScraper
